import Mathlib

/-!
# Verification of the roead codec glue layer

A shallow embedding of the roead C++ codec sources (`src/aamp/aamp.cc`,
`src/byml/byml.cc`, `src/sarc/sarc.cc`, `src/yaz0/yaz0.cc` together with the
headers under `include/`), with theorems settling the behavioural claims made
by the specification.

Byte strings are modelled as `List Nat` (each element a byte value), machine
integers as `Nat`/`Int` with explicit reduction modulo `2 ^ 32` where the
formats fix a 32-bit width, and 32-bit floats are carried as opaque bit
patterns (`Nat`), since none of the code interprets them arithmetically.
Fallible operations (C++ `throw`, `std::optional`) return `Option`.

Parts of the underlying oead library that the repository only calls
(`oead::yaz0::Compress`/`Decompress`, `oead::Sarc::GetFile`,
`oead::Sarc::GuessMinAlignment`, `oead::aamp::ParameterMap`) are not in the
repository sources; they are modelled from the specification text and marked
`Modelled from the spec:` in their doc comments.
-/

namespace Roead

/-- Byte strings: lists of byte values. -/
abbrev Bytes := List Nat

/-- Index a byte list, defaulting to 0 (mirrors raw pointer indexing into a
buffer whose bounds have been established separately). -/
def gd : List Nat → Nat → Nat
  | [], _ => 0
  | a :: _, 0 => a
  | _ :: t, n + 1 => gd t n

/-- Byte-wise lexicographic strict order on byte strings, the order used by
`std::string::operator<` and hence by `absl::btree_map<std::string, _>`. -/
def bytesLt : Bytes → Bytes → Bool
  | [], [] => false
  | [], _ :: _ => true
  | _ :: _, [] => false
  | a :: as, b :: bs => if a < b then true else if a = b then bytesLt as bs else false

/-- Insertion into a `absl::btree_map<std::string, V>` with `insert`/`emplace`
semantics: entries kept in ascending byte-wise key order, and an existing
entry with the same key is kept. -/
def btKeep {α : Type} (m : List (Bytes × α)) (k : Bytes) (v : α) :
    List (Bytes × α) :=
  match m with
  | [] => [(k, v)]
  | (k0, v0) :: rest =>
    if bytesLt k k0 then (k, v) :: (k0, v0) :: rest
    else if k = k0 then (k0, v0) :: rest
    else (k0, v0) :: btKeep rest k v

/-- Insertion into a `absl::btree_map<std::string, V>` with
`operator[]`-assignment semantics: entries kept in ascending byte-wise key
order, and an existing entry with the same key is overwritten. -/
def btAssign {α : Type} (m : List (Bytes × α)) (k : Bytes) (v : α) :
    List (Bytes × α) :=
  match m with
  | [] => [(k, v)]
  | (k0, v0) :: rest =>
    if bytesLt k k0 then (k, v) :: (k0, v0) :: rest
    else if k = k0 then (k, v) :: rest
    else (k0, v0) :: btAssign rest k v

namespace Aamp

/-- A curve value as carried across the FFI boundary (`Curve` in `aamp.cc`):
two header fields and the control-point floats, all as f32 bit patterns. -/
structure Curve where
  a : Nat
  b : Nat
  floats : List Nat
deriving DecidableEq, Repr

/-- The FFI-side parameter (`RsParameter` in `aamp.cc`): a raw type tag as
returned by `get_ffi_type()` plus the payloads returned by the `get_*`
accessors.  Only the payload selected by the tag is meaningful. -/
structure RsParameter where
  tag : Nat
  bval : Bool
  fbits : Nat
  ival : Int
  uval : Nat
  vecv : List Nat
  strv : Bytes
  curvev : List Curve
  bufInt : List Int
  bufF32 : List Nat
  bufU32 : List Nat
  bufBin : List Nat
deriving DecidableEq, Repr

/-- `oead::aamp::Parameter`: the closed union of parameter values
(`oead/aamp.h`), one arm per `ParamType` variant. -/
inductive Parameter where
  | bool (b : Bool)
  | f32 (bits : Nat)
  | int (v : Int)
  | vec2 (x y : Nat)
  | vec3 (x y z : Nat)
  | vec4 (x y z t : Nat)
  | color (r g b a : Nat)
  | string32 (s : Bytes)
  | string64 (s : Bytes)
  | curve1 (c1 : Curve)
  | curve2 (c1 c2 : Curve)
  | curve3 (c1 c2 c3 : Curve)
  | curve4 (c1 c2 c3 c4 : Curve)
  | bufferInt (v : List Int)
  | bufferF32 (v : List Nat)
  | string256 (s : Bytes)
  | quat (a b c d : Nat)
  | u32 (v : Nat)
  | bufferU32 (v : List Nat)
  | bufferBinary (v : List Nat)
  | stringRef (s : Bytes)
deriving DecidableEq, Repr

/-- Curve accessor: `param.get_curveN()[i]`. -/
def cAt (p : RsParameter) (i : Nat) : Curve :=
  p.curvev.getD i ⟨0, 0, []⟩

/-- `ParamFromFfi` (`aamp.cc` lines 216-333): switch on the FFI type tag,
building the corresponding `oead::aamp::Parameter` arm; the `default` case
throws (`none` here).  The four buffer cases translate
`std::vector<T> vec(buf.size()); for (auto v : buf) vec.push_back(v);`
literally: a zero-filled vector of the buffer's length followed by the
pushed-back elements. -/
def ParamFromFfi (p : RsParameter) : Option Parameter :=
  match p.tag with
  | 0 => some (.bool p.bval)
  | 1 => some (.f32 p.fbits)
  | 2 => some (.int p.ival)
  | 3 => some (.vec2 (gd p.vecv 0) (gd p.vecv 1))
  | 4 => some (.vec3 (gd p.vecv 0) (gd p.vecv 1) (gd p.vecv 2))
  | 5 => some (.vec4 (gd p.vecv 0) (gd p.vecv 1) (gd p.vecv 2) (gd p.vecv 3))
  | 6 => some (.color (gd p.vecv 0) (gd p.vecv 1) (gd p.vecv 2) (gd p.vecv 3))
  | 7 => some (.string32 (p.strv.take 32))
  | 8 => some (.string64 (p.strv.take 64))
  | 9 => some (.curve1 (cAt p 0))
  | 10 => some (.curve2 (cAt p 0) (cAt p 1))
  | 11 => some (.curve3 (cAt p 0) (cAt p 1) (cAt p 2))
  | 12 => some (.curve4 (cAt p 0) (cAt p 1) (cAt p 2) (cAt p 3))
  | 13 => some (.bufferInt (List.replicate p.bufInt.length 0 ++ p.bufInt))
  | 14 => some (.bufferF32 (List.replicate p.bufF32.length 0 ++ p.bufF32))
  | 15 => some (.string256 (p.strv.take 256))
  | 16 => some (.quat (gd p.vecv 0) (gd p.vecv 1) (gd p.vecv 2) (gd p.vecv 3))
  | 17 => some (.u32 p.uval)
  | 18 => some (.bufferU32 (List.replicate p.bufU32.length 0 ++ p.bufU32))
  | 19 => some (.bufferBinary (List.replicate p.bufBin.length 0 ++ p.bufBin))
  | 20 => some (.stringRef p.strv)
  | _ => none

/-- The canonical type tag of a constructed `Parameter` arm
(the value `get_ffi_type()` reports for it). -/
def paramTypeOf : Parameter → Nat
  | .bool _ => 0
  | .f32 _ => 1
  | .int _ => 2
  | .vec2 _ _ => 3
  | .vec3 _ _ _ => 4
  | .vec4 _ _ _ _ => 5
  | .color _ _ _ _ => 6
  | .string32 _ => 7
  | .string64 _ => 8
  | .curve1 _ => 9
  | .curve2 _ _ => 10
  | .curve3 _ _ _ => 11
  | .curve4 _ _ _ _ => 12
  | .bufferInt _ => 13
  | .bufferF32 _ => 14
  | .string256 _ => 15
  | .quat _ _ _ _ => 16
  | .u32 _ => 17
  | .bufferU32 _ => 18
  | .bufferBinary _ => 19
  | .stringRef _ => 20

/-- Modelled from the spec: `oead::aamp::ParameterMap` is not in the
repository sources.  Per the spec (section 3) a Parameter Object is a
Hash-Sorted Map: an "ordered sequence of (hash, value) pairs, strictly
ascending by hash, duplicate hashes disallowed (last-write-wins on insert)".
`pmInsert` is the insert (`map[hash] = value`). -/
def pmInsert {α : Type} (m : List (Nat × α)) (h : Nat) (v : α) : List (Nat × α) :=
  match m with
  | [] => [(h, v)]
  | (k, w) :: rest =>
    if h < k then (h, v) :: (k, w) :: rest
    else if h = k then (h, v) :: rest
    else (k, w) :: pmInsert rest h v

/-- The FFI-side parameter object: entries in the order the FFI node
enumerates them (`hash_at`/`val_at` in `aamp.cc`). -/
structure RsParameterObject where
  entries : List (Nat × RsParameter)

/-- Loop body of `PobjFromFfi` (`aamp.cc` lines 335-344):
`map[pobj.hash_at(i)] = ParamFromFfi(pobj.val_at(i))` for each index in
order; a throw from `ParamFromFfi` aborts the whole conversion. -/
def pobjGo : List (Nat × RsParameter) → List (Nat × Parameter) →
    Option (List (Nat × Parameter))
  | [], m => some m
  | (h, p) :: rest, m =>
    match ParamFromFfi p with
    | none => none
    | some v => pobjGo rest (pmInsert m h v)

/-- `PobjFromFfi` (`aamp.cc` lines 335-344). -/
def PobjFromFfi (o : RsParameterObject) : Option (List (Nat × Parameter)) :=
  pobjGo o.entries []

/-- `GetParamAt` (`aamp.cc` lines 182-186): `pmap.values_container().at(idx)`,
the (hash, value) pair at the given position of the map's stored sequence. -/
def GetParamAt (m : List (Nat × Parameter)) (i : Nat) : Nat × Parameter :=
  m.getD i (0, .bool false)

end Aamp

namespace Byml

/-- The FFI-side data-tree node (`RByml` in `byml.cc`), as exposed through
`get_ffi_type()`, `len()`, `get(i)`, `get_key_by_index(i)` and the `as_*`
accessors.  Hash entries appear in the order the FFI node enumerates them.
Floats are carried as f32/f64 bit patterns. -/
inductive RByml where
  | null
  | bool (b : Bool)
  | int (v : Int)
  | int64 (v : Int)
  | uint (v : Nat)
  | uint64 (v : Nat)
  | float (bits : Nat)
  | double (bits : Nat)
  | string (s : Bytes)
  | array (xs : List RByml)
  | hash (entries : List (Bytes × RByml))

/-- `oead::Byml`: the codec-side node (tagged union per `oead/byml.h`). -/
inductive Node where
  | null
  | bool (b : Bool)
  | int (v : Int)
  | int64 (v : Int)
  | uint (v : Nat)
  | uint64 (v : Nat)
  | float (bits : Nat)
  | double (bits : Nat)
  | string (s : Bytes)
  | array (xs : List Node)
  | hash (entries : List (Bytes × Node))

/-- Insertion into `absl::btree_map<std::string, Byml>` via `insert`. -/
def btreeInsert (m : List (Bytes × Node)) (k : Bytes) (v : Node) :
    List (Bytes × Node) :=
  btKeep m k v

mutual

/-- `FromFfi` (`byml.cc` lines 51-87): switch on the FFI node type.  The
switch has cases for Array, Hash, Bool, String, Int, Int64, UInt, UInt64,
Float and Double only: a `Null` node reaches the end of the switch of this
value-returning function without returning (`none` here). -/
def FromFfi : RByml → Option Node
  | .null => none
  | .bool b => some (.bool b)
  | .int v => some (.int v)
  | .int64 v => some (.int64 v)
  | .uint v => some (.uint v)
  | .uint64 v => some (.uint64 v)
  | .float b => some (.float b)
  | .double b => some (.double b)
  | .string s => some (.string s)
  | .array xs =>
    match fromFfiList xs with
    | some ys => some (.array ys)
    | none => none
  | .hash es =>
    match fromFfiHash es [] with
    | some m => some (.hash m)
    | none => none

/-- The Array loop of `FromFfi`: `vec.push_back(FromFfi(node.get(i)))` in
index order. -/
def fromFfiList : List RByml → Option (List Node)
  | [] => some []
  | x :: xs =>
    match FromFfi x, fromFfiList xs with
    | some y, some ys => some (y :: ys)
    | _, _ => none

/-- The Hash loop of `FromFfi`:
`hash.insert(make_pair(node.get_key_by_index(i), FromFfi(node.get(i))))`
in enumeration order, accumulating into the btree map. -/
def fromFfiHash : List (Bytes × RByml) → List (Bytes × Node) →
    Option (List (Bytes × Node))
  | [], acc => some acc
  | (k, r) :: es, acc =>
    match FromFfi r with
    | some v => fromFfiHash es (btreeInsert acc k v)
    | none => none

end

end Byml

namespace Sarc

/-- One parsed archive entry: name, payload bytes, and the payload's start
offset in the original buffer. -/
structure SFile where
  name : Bytes
  data : Bytes
  offset : Nat
deriving DecidableEq

/-- A parsed archive (`Sarc` in `sarc.cc`, wrapping `oead::Sarc`): the file
table in on-disk order together with the detected endianness. -/
structure Archive where
  files : List SFile
  bigEndian : Bool

/-- Modelled from the spec: the 32-bit file-name hash used by the archive's
name-hash table (`oead::Sarc` internals are not in the repository sources).
The spec fixes only that it is a 32-bit hash of the name (sections 2, 4.2);
the multiplicative fold is one concrete such hash. -/
def sarcHash (name : Bytes) : Nat :=
  name.foldl (fun h c => (h * 0x65599 + c) % 4294967296) 0

/-- The archive's name-hash table: (hash, entry) pairs in table order. -/
def table (a : Archive) : List (Nat × SFile) :=
  a.files.map (fun f => (sarcHash f.name, f))

/-- Modelled from the spec: binary search over the hash-sorted file table
(section 4.2, "hash the name, binary-search the table").  Searches the index
interval [lo, hi); `fuel` bounds the recursion depth. -/
def bsearch (tbl : List (Nat × SFile)) (target : Nat) :
    Nat → Nat → Nat → Option SFile
  | _, _, 0 => none
  | lo, hi, fuel + 1 =>
    if lo < hi then
      let mid := (lo + hi) / 2
      let e := tbl.getD mid (0, ⟨[], [], 0⟩)
      if e.1 = target then some e.2
      else if e.1 < target then bsearch tbl target (mid + 1) hi fuel
      else bsearch tbl target lo mid fuel
    else none

/-- Modelled from the spec: `oead::Sarc::GetFile(name)` — hash the name,
binary-search the table, and fail (NotFound) if the name is absent
(section 4.2). -/
def GetFile (a : Archive) (name : Bytes) : Option Bytes :=
  match bsearch (table a) (sarcHash name) 0 (table a).length (table a).length with
  | none => none
  | some f => if f.name = name then some f.data else none

/-- `Sarc::get_file_data` (`sarc.cc` lines 18-25): look the name up and throw
(`none`) when the lookup reports no such file. -/
def get_file_data (a : Archive) (name : Bytes) : Option Bytes :=
  match GetFile a name with
  | none => none
  | some d => some d

/-- Modelled from the spec: `oead::Sarc::GuessMinAlignment` — "a best-effort
alignment guess derived from the GCD of all payload start offsets"
(section 4.2). -/
def GuessMinAlignment (a : Archive) : Nat :=
  a.files.foldl (fun g f => Nat.gcd g f.offset) 0

/-- Parse invariant of a well-formed archive (spec section 3): the name-hash
table is strictly ascending; data with a duplicate hash is malformed. -/
abbrev WellFormed (a : Archive) : Prop :=
  List.Pairwise (fun x y => x.1 < y.1) (table a)

/-- Insert-or-assign into `absl::btree_map<std::string, std::vector<u8>>`
via `operator[]` (`m_files[path] = vec`). -/
def nameAssign (m : List (Bytes × Bytes)) (k : Bytes) (v : Bytes) :
    List (Bytes × Bytes) :=
  btAssign m k v

/-- Insertion into the same map via `emplace` (keeps an existing entry). -/
def nameEmplace (m : List (Bytes × Bytes)) (k : Bytes) (v : Bytes) :
    List (Bytes × Bytes) :=
  btKeep m k v

/-- `SarcWriter` (`sarc.cc` / `include/sarc.h`, wrapping `oead::SarcWriter`):
the name-to-payload map `m_files`, endianness, layout mode and minimum
alignment. -/
structure Writer where
  files : List (Bytes × Bytes)
  bigEndian : Bool
  legacy : Bool
  minAlignment : Nat
deriving DecidableEq

/-- `SarcWriter::SetFile` (`sarc.cc` lines 67-72): `m_files[path] = vec`. -/
def SetFile (w : Writer) (name data : Bytes) : Writer :=
  { w with files := nameAssign w.files name data }

/-- `SarcWriter::DelFile` (`sarc.cc` lines 74-76): erase by name. -/
def DelFile (w : Writer) (name : Bytes) : Writer :=
  { w with files := w.files.filter (fun p => p.1 ≠ name) }

/-- `NewSarcWriter` (`sarc.cc` lines 51-55). -/
def NewSarcWriter (bigEndian legacy : Bool) : Writer :=
  ⟨[], bigEndian, legacy, 0⟩

/-- `SarcWriter::FilesEqual` (`sarc.cc` lines 78-81):
`m_files == other.m_files`, element-wise equality of the two btree maps'
stored sequences. -/
def FilesEqual (w1 w2 : Writer) : Bool :=
  decide (w1.files = w2.files)

/-- `WriterFromSarc` (`sarc.cc` lines 87-96): a writer with the archive's
endianness, `Mode::New`, minimum alignment from `GuessMinAlignment`, and
`m_files` populated by `emplace`ing every archive entry in table order. -/
def WriterFromSarc (a : Archive) : Writer :=
  { files := a.files.foldl (fun m f => nameEmplace m f.name f.data) []
    bigEndian := a.bigEndian
    legacy := false
    minAlignment := GuessMinAlignment a }

/-- Invariant of a writer's `m_files` btree map: strictly ascending
byte-wise key order (maintained by every map operation). -/
abbrev WInv (w : Writer) : Prop :=
  List.Pairwise (fun p q => bytesLt p.1 q.1 = true) w.files

end Sarc

namespace Yaz0

/-- Big-endian encoding of a 32-bit value into four bytes. -/
def u32be (n : Nat) : List Nat :=
  [n / 2 ^ 24 % 256, n / 2 ^ 16 % 256, n / 2 ^ 8 % 256, n % 256]

/-- Big-endian decoding of the first four bytes of a list. -/
def readU32be (l : List Nat) : Nat :=
  gd l 0 * 2 ^ 24 + gd l 1 * 2 ^ 16 + gd l 2 * 2 ^ 8 + gd l 3

/-- Modelled from the spec: the fixed 16-byte Yaz0 header
(`oead::yaz0::Header`, `src/include/oead/yaz0.h` lines 33-46): the magic tag
`Yaz0`, the 32-bit big-endian uncompressed size, the 32-bit big-endian
alignment hint, and four reserved zero bytes. -/
def mkHeader (size align : Nat) : List Nat :=
  [0x59, 0x61, 0x7A, 0x30] ++ u32be (size % 2 ^ 32) ++ u32be (align % 2 ^ 32)
    ++ [0, 0, 0, 0]

/-- One token of the Yaz0 stream: a literal byte, or a back-reference of
`len` bytes at distance `d`. -/
inductive Tok where
  | lit (b : Nat)
  | ref (d len : Nat)
deriving DecidableEq

/-- Whether a token is a literal (its control bit is 1). -/
def isLit : Tok → Bool
  | .lit _ => true
  | .ref _ _ => false

/-- Length of the longest common run of `src` read from positions `i` and
`j`, capped by `cap` and by the end of `src` at `j`. -/
def matchLen (src : Bytes) : Nat → Nat → Nat → Nat
  | _, _, 0 => 0
  | i, j, cap + 1 =>
    if j < src.length ∧ gd src i = gd src j then matchLen src (i + 1) (j + 1) cap + 1
    else 0

/-- Modelled from the spec: candidate back-reference search (section 4.1,
"greedy/optimal LZ77 matching with search effort scaled by `level`").  Tries
distances `d, d-1, ..., 1`, keeping the longest match of length at least 3;
match lengths are capped at `0x111`, the maximum a long code can express. -/
def bestMatchGo (src : Bytes) (pos : Nat) : Nat → Option (Nat × Nat) →
    Option (Nat × Nat)
  | 0, best => best
  | d + 1, best =>
    let len := matchLen src (pos - (d + 1)) pos 0x111
    let prev := match best with | none => 0 | some b => b.2
    let best1 := if 3 ≤ len ∧ prev < len then some (d + 1, len) else best
    bestMatchGo src pos d best1

/-- Modelled from the spec: how many candidate distances the compressor
examines, scaled by `level` (6-9) and capped at the format's 12-bit
distance range. -/
def searchDepth (level : Nat) : Nat :=
  min 0x1000 (level * 0x200)

/-- Find the best back-reference for position `pos`, looking at most
`searchDepth level` distances back (and never before the buffer start). -/
def findBestMatch (src : Bytes) (pos level : Nat) : Option (Nat × Nat) :=
  bestMatchGo src pos (min pos (searchDepth level)) none

/-- Modelled from the spec: the greedy tokenizer at the heart of
`oead::yaz0::Compress` (section 4.1): at each position emit the best
back-reference if one of length at least 3 exists, else a literal byte.
`fuel` bounds the recursion (any value at least `src.length - pos` is
enough). -/
def compressTokens (src : Bytes) (level : Nat) : Nat → Nat → List Tok
  | 0, _ => []
  | fuel + 1, pos =>
    if pos < src.length then
      match findBestMatch src pos level with
      | some (d, len) => .ref d len :: compressTokens src level fuel (pos + len)
      | none => .lit (gd src pos) :: compressTokens src level fuel (pos + 1)
    else []

/-- Byte encoding of one token per the classic Yaz0 token encoding
(section 4.1): a literal is the byte itself; a short code packs
(length - 2) in the high nibble and (distance - 1) in 12 bits; a long code
signals with a zero nibble and carries (length - 0x12) in a third byte. -/
def encodeTok : Tok → List Nat
  | .lit b => [b]
  | .ref d len =>
    if len < 0x12 then
      [(len - 2) * 16 + (d - 1) / 256, (d - 1) % 256]
    else
      [(d - 1) / 256, (d - 1) % 256, len - 0x12]

/-- The control byte of a group of at most 8 tokens: one bit per token, MSB
first, 1 for a literal; unused low bits are 0. -/
def ctrlBits (g : List Tok) : Nat :=
  g.foldl (fun a t => 2 * a + (if isLit t then 1 else 0)) 0

/-- The control byte of a group, padded on the right to 8 bits. -/
def ctrlByte (g : List Tok) : Nat :=
  ctrlBits g * 2 ^ (8 - g.length)

/-- Concatenated byte encodings of a list of tokens. -/
def encodeToks : List Tok → List Nat
  | [] => []
  | t :: ts => encodeTok t ++ encodeToks ts

/-- Serialize tokens in groups of 8, each preceded by its control byte.
`fuel` bounds the recursion (any value at least the number of tokens is
enough). -/
def encodeGroups : Nat → List Tok → List Nat
  | _, [] => []
  | 0, _ :: _ => []
  | fuel + 1, t :: rest =>
    let g := t :: rest.take 7
    ctrlByte g :: (encodeToks g ++ encodeGroups fuel (rest.drop 7))

/-- Modelled from the spec: `oead::yaz0::Compress` (section 4.1) — the
16-byte header carrying the alignment hint and the source length, followed
by the token stream. -/
def Compress (src : Bytes) (align level : Nat) : List Nat :=
  mkHeader src.length align
    ++ encodeGroups (compressTokens src level src.length 0).length
         (compressTokens src level src.length 0)

/-- `compress` (`yaz0.cc` lines 20-25): the exposed entry point calls
`oead::yaz0::Compress(span, 0, level)` — the alignment hint is always 0. -/
def compress (src : Bytes) (level : Nat) : List Nat :=
  Compress src 0 level

/-- Append `len` bytes copied one at a time from `d` positions back in the
output (back-references may overlap their own output). -/
def copyBack (d : Nat) : List Nat → Nat → List Nat
  | out, 0 => out
  | out, k + 1 => copyBack d (out ++ [gd out (out.length - d)]) k

/-- Modelled from the spec: one iteration of the checked decompression loop
(section 4.1).  `rec` continues the loop with one unit of fuel consumed.
The output must reach exactly `size` bytes; truncated input, an
out-of-range distance, or a length overshoot are fatal (`none`).  When the
control bits of the current group are used up, the next input byte is the
next control byte; a set control bit copies one literal byte; a clear bit
reads a back-reference token (short code: 4-bit length nibble + 12-bit
distance; a zero nibble signals a long code with an extra length byte) and
copies `len` bytes from `d` positions back, byte by byte. -/
def decStep (size : Nat)
    (rec : List Nat → List Nat → Nat → Nat → Option (List Nat))
    (out inp : List Nat) (ctrl bits : Nat) : Option (List Nat) :=
  if size ≤ out.length then
    if out.length = size then some out else none
  else if bits = 0 then
    match inp with
    | [] => none
    | c :: rest => rec out rest c 8
  else if ctrl / 2 ^ (bits - 1) % 2 = 1 then
    match inp with
    | [] => none
    | b :: rest => rec (out ++ [b]) rest ctrl (bits - 1)
  else
    match inp with
    | b1 :: b2 :: rest =>
      let d := b1 % 16 * 256 + b2 + 1
      if b1 / 16 = 0 then
        match rest with
        | [] => none
        | b3 :: rest2 =>
          if d ≤ out.length then rec (copyBack d out (b3 + 0x12)) rest2 ctrl (bits - 1)
          else none
      else
        if d ≤ out.length then rec (copyBack d out (b1 / 16 + 2)) rest ctrl (bits - 1)
        else none
    | _ => none

/-- Modelled from the spec: the checked decompression loop (section 4.1),
iterating `decStep`; `fuel` bounds the iteration count (each iteration
consumes input, so any value above the input length is enough). -/
def decLoop (size : Nat) : List Nat → List Nat → Nat → Nat → Nat →
    Option (List Nat)
  | _, _, _, _, 0 => none
  | out, inp, ctrl, bits, fuel + 1 =>
    decStep size (fun o i c b => decLoop size o i c b fuel) out inp ctrl bits

/-- Modelled from the spec: `oead::yaz0::Decompress` (section 4.1) — read
and validate the 16-byte header (magic tag, uncompressed size), then run the
checked expansion loop over the token stream. -/
def Decompress (inp : List Nat) : Option (List Nat) :=
  if 16 ≤ inp.length ∧ gd inp 0 = 0x59 ∧ gd inp 1 = 0x61 ∧ gd inp 2 = 0x7A ∧
      gd inp 3 = 0x30 then
    let size := readU32be (inp.drop 4)
    decLoop size [] (inp.drop 16) 0 0 (size + (inp.drop 16).length + 1)
  else none

/-- `decompress` (`yaz0.cc` lines 12-18): the exposed entry point calls
`oead::yaz0::Decompress` on the input span. -/
def decompress (inp : List Nat) : Option (List Nat) :=
  Decompress inp

/-- Specification predicate: `(d, len)` is a back-reference the format can
express at position `pos` of `src` and whose expansion reproduces the next
`len` source bytes. -/
def ValidMatch (src : Bytes) (pos d len : Nat) : Prop :=
  1 ≤ d ∧ d ≤ pos ∧ d ≤ 0x1000 ∧ 3 ≤ len ∧ len ≤ 0x111 ∧
    pos + len ≤ src.length ∧
    ∀ i < len, gd src (pos - d + i) = gd src (pos + i)

/-- Specification predicate: a token list decodes `src` from position `pos`
up to position `q`. -/
inductive TokChain (src : Bytes) : Nat → List Tok → Nat → Prop
  | nil (pos : Nat) : TokChain src pos [] pos
  | lit (pos : Nat) (rest : List Tok) (q : Nat) :
      pos < src.length → TokChain src (pos + 1) rest q →
      TokChain src pos (.lit (gd src pos) :: rest) q
  | ref (pos d len : Nat) (rest : List Tok) (q : Nat) :
      ValidMatch src pos d len → TokChain src (pos + len) rest q →
      TokChain src pos (.ref d len :: rest) q

end Yaz0

/-!
## Theorems

Helper lemmas first, then one theorem per claim (with a closed witness for
every claim theorem that carries hypotheses).
-/

theorem bytesLt_cons {a b : Nat} {as bs : Bytes} :
    bytesLt (a :: as) (b :: bs) = true ↔ a < b ∨ (a = b ∧ bytesLt as bs = true) := by
  simp only [bytesLt]
  split_ifs with h1 h2
  · simp [h1]
  · subst h2
    simp
  · simp only [Bool.false_eq_true, false_iff]
    push_neg
    exact ⟨by omega, fun h => absurd h h2⟩

theorem bytesLt_irrefl (a : Bytes) : bytesLt a a = false := by
  induction a with
  | nil => rfl
  | cons x xs ih => simp [bytesLt, ih]

theorem bytesLt_trans : ∀ {a b c : Bytes},
    bytesLt a b = true → bytesLt b c = true → bytesLt a c = true := by
  intro a
  induction a with
  | nil =>
    intro b c hab hbc
    cases b with
    | nil => simp [bytesLt] at hab
    | cons y bs =>
      cases c with
      | nil => simp [bytesLt] at hbc
      | cons z cs => simp [bytesLt]
  | cons x as ih =>
    intro b c hab hbc
    cases b with
    | nil => simp [bytesLt] at hab
    | cons y bs =>
      cases c with
      | nil => simp [bytesLt] at hbc
      | cons z cs =>
        rcases bytesLt_cons.mp hab with h1 | ⟨h1, h1t⟩ <;>
          rcases bytesLt_cons.mp hbc with h2 | ⟨h2, h2t⟩ <;>
          refine bytesLt_cons.mpr ?_
        · exact Or.inl (by omega)
        · exact Or.inl (by omega)
        · exact Or.inl (by omega)
        · exact Or.inr ⟨by omega, ih h1t h2t⟩

theorem bytesLt_asymm {a b : Bytes} (h1 : bytesLt a b = true)
    (h2 : bytesLt b a = true) : False := by
  have := bytesLt_trans h1 h2
  rw [bytesLt_irrefl] at this
  exact absurd this (by simp)

theorem bytesLt_total : ∀ (a b : Bytes),
    a = b ∨ bytesLt a b = true ∨ bytesLt b a = true := by
  intro a
  induction a with
  | nil =>
    intro b
    cases b with
    | nil => exact Or.inl rfl
    | cons y bs => exact Or.inr (Or.inl (by simp [bytesLt]))
  | cons x as ih =>
    intro b
    cases b with
    | nil => exact Or.inr (Or.inr (by simp [bytesLt]))
    | cons y bs =>
      rcases Nat.lt_trichotomy x y with h | h | h
      · exact Or.inr (Or.inl (bytesLt_cons.mpr (Or.inl h)))
      · rcases ih bs with h2 | h2 | h2
        · exact Or.inl (by rw [h, h2])
        · exact Or.inr (Or.inl (bytesLt_cons.mpr (Or.inr ⟨h, h2⟩)))
        · exact Or.inr (Or.inr (bytesLt_cons.mpr (Or.inr ⟨h.symm, h2⟩)))
      · exact Or.inr (Or.inr (bytesLt_cons.mpr (Or.inl h)))

theorem btKeep_mem {α : Type} {m : List (Bytes × α)} {k : Bytes} {v : α}
    {x : Bytes × α} (hx : x ∈ btKeep m k v) : x ∈ m ∨ x = (k, v) := by
  induction m with
  | nil =>
    simp only [btKeep, List.mem_singleton] at hx
    exact Or.inr hx
  | cons p rest ih =>
    obtain ⟨k0, v0⟩ := p
    simp only [btKeep] at hx
    split_ifs at hx with h1 h2
    · rcases List.mem_cons.mp hx with h3 | h3
      · exact Or.inr h3
      · exact Or.inl h3
    · exact Or.inl hx
    · rcases List.mem_cons.mp hx with h3 | h3
      · exact Or.inl (by simp [h3])
      · rcases ih h3 with h4 | h4
        · exact Or.inl (List.mem_cons_of_mem _ h4)
        · exact Or.inr h4

theorem btKeep_sorted {α : Type} {m : List (Bytes × α)} (k : Bytes) (v : α)
    (hs : List.Pairwise (fun p q => bytesLt p.1 q.1 = true) m) :
    List.Pairwise (fun p q => bytesLt p.1 q.1 = true) (btKeep m k v) := by
  induction m with
  | nil => simp [btKeep]
  | cons p rest ih =>
    obtain ⟨k0, v0⟩ := p
    rcases List.pairwise_cons.mp hs with ⟨hk, hrest⟩
    simp only [btKeep]
    split_ifs with h1 h2
    · refine List.pairwise_cons.mpr ⟨?_, hs⟩
      intro x hx
      rcases List.mem_cons.mp hx with h3 | h3
      · simp [h3, h1]
      · exact bytesLt_trans h1 (hk x h3)
    · exact hs
    · have hgt : bytesLt k0 k = true := by
        rcases bytesLt_total k k0 with h3 | h3 | h3
        · exact absurd h3 h2
        · exact absurd h3 (by simp [h1])
        · exact h3
      refine List.pairwise_cons.mpr ⟨?_, ih hrest⟩
      intro x hx
      rcases btKeep_mem hx with h3 | h3
      · exact hk x h3
      · simp only [h3]
        exact hgt

theorem btAssign_mem {α : Type} {m : List (Bytes × α)} {k : Bytes} {v : α}
    {x : Bytes × α} (hx : x ∈ btAssign m k v) : x ∈ m ∨ x = (k, v) := by
  induction m with
  | nil =>
    simp only [btAssign, List.mem_singleton] at hx
    exact Or.inr hx
  | cons p rest ih =>
    obtain ⟨k0, v0⟩ := p
    simp only [btAssign] at hx
    split_ifs at hx with h1 h2
    · rcases List.mem_cons.mp hx with h3 | h3
      · exact Or.inr h3
      · exact Or.inl h3
    · rcases List.mem_cons.mp hx with h3 | h3
      · exact Or.inr h3
      · exact Or.inl (List.mem_cons_of_mem _ h3)
    · rcases List.mem_cons.mp hx with h3 | h3
      · exact Or.inl (by simp [h3])
      · rcases ih h3 with h4 | h4
        · exact Or.inl (List.mem_cons_of_mem _ h4)
        · exact Or.inr h4

theorem btAssign_sorted {α : Type} {m : List (Bytes × α)} (k : Bytes) (v : α)
    (hs : List.Pairwise (fun p q => bytesLt p.1 q.1 = true) m) :
    List.Pairwise (fun p q => bytesLt p.1 q.1 = true) (btAssign m k v) := by
  induction m with
  | nil => simp [btAssign]
  | cons p rest ih =>
    obtain ⟨k0, v0⟩ := p
    rcases List.pairwise_cons.mp hs with ⟨hk, hrest⟩
    simp only [btAssign]
    split_ifs with h1 h2
    · refine List.pairwise_cons.mpr ⟨?_, hs⟩
      intro x hx
      rcases List.mem_cons.mp hx with h3 | h3
      · simp [h3, h1]
      · exact bytesLt_trans h1 (hk x h3)
    · refine List.pairwise_cons.mpr ⟨?_, hrest⟩
      intro x hx
      subst h2
      exact hk x hx
    · have hgt : bytesLt k0 k = true := by
        rcases bytesLt_total k k0 with h3 | h3 | h3
        · exact absurd h3 h2
        · exact absurd h3 (by simp [h1])
        · exact h3
      refine List.pairwise_cons.mpr ⟨?_, ih hrest⟩
      intro x hx
      rcases btAssign_mem hx with h3 | h3
      · exact hk x h3
      · simp only [h3]
        exact hgt

namespace Aamp

theorem pmInsert_mem {α : Type} {m : List (Nat × α)} {h : Nat} {v : α}
    {x : Nat × α} (hx : x ∈ pmInsert m h v) : x ∈ m ∨ x = (h, v) := by
  induction m with
  | nil =>
    simp only [pmInsert, List.mem_singleton] at hx
    exact Or.inr hx
  | cons p rest ih =>
    obtain ⟨k, w⟩ := p
    simp only [pmInsert] at hx
    by_cases h1 : h < k
    · simp only [if_pos h1, List.mem_cons] at hx
      rcases hx with h2 | h2 | h2
      · exact Or.inr h2
      · exact Or.inl (by simp [h2])
      · exact Or.inl (List.mem_cons_of_mem _ h2)
    · by_cases h2 : h = k
      · simp only [if_neg h1, if_pos h2, List.mem_cons] at hx
        rcases hx with h3 | h3
        · exact Or.inr h3
        · exact Or.inl (List.mem_cons_of_mem _ h3)
      · simp only [if_neg h1, if_neg h2, List.mem_cons] at hx
        rcases hx with h3 | h3
        · exact Or.inl (by simp [h3])
        · rcases ih h3 with h4 | h4
          · exact Or.inl (List.mem_cons_of_mem _ h4)
          · exact Or.inr h4

theorem pmInsert_sorted {α : Type} {m : List (Nat × α)} (h : Nat) (v : α)
    (hs : List.Pairwise (fun a b => a.1 < b.1) m) :
    List.Pairwise (fun a b => a.1 < b.1) (pmInsert m h v) := by
  induction m with
  | nil => simp [pmInsert]
  | cons p rest ih =>
    obtain ⟨k, w⟩ := p
    rcases List.pairwise_cons.mp hs with ⟨hk, hrest⟩
    simp only [pmInsert]
    by_cases h1 : h < k
    · simp only [if_pos h1]
      refine List.pairwise_cons.mpr ⟨?_, hs⟩
      intro x hx
      rcases List.mem_cons.mp hx with h2 | h2
      · simp [h2]; omega
      · have := hk x h2
        simp only at this ⊢
        omega
    · by_cases h2 : h = k
      · simp only [if_neg h1, if_pos h2]
        refine List.pairwise_cons.mpr ⟨?_, hrest⟩
        intro x hx
        have := hk x hx
        simp only at this ⊢
        omega
      · simp only [if_neg h1, if_neg h2]
        refine List.pairwise_cons.mpr ⟨?_, ih hrest⟩
        intro x hx
        rcases pmInsert_mem hx with h3 | h3
        · exact hk x h3
        · simp only [h3]
          omega

theorem pobjGo_sorted {es : List (Nat × RsParameter)} :
    ∀ {acc m : List (Nat × Parameter)},
      List.Pairwise (fun a b => a.1 < b.1) acc →
      pobjGo es acc = some m →
      List.Pairwise (fun a b => a.1 < b.1) m := by
  induction es with
  | nil =>
    intro acc m hacc hm
    simp only [pobjGo, Option.some.injEq] at hm
    exact hm ▸ hacc
  | cons e rest ih =>
    intro acc m hacc hm
    obtain ⟨h, p⟩ := e
    simp only [pobjGo] at hm
    cases hp : ParamFromFfi p with
    | none => rw [hp] at hm; exact absurd hm (by simp)
    | some v =>
      rw [hp] at hm
      exact ih (pmInsert_sorted h v hacc) hm

/-- C9: enumerating a converted parameter object by index (`GetParamAt` at
0, 1, ...) yields hashes in strictly ascending order, whatever order the
FFI object enumerated them in; in particular an object inserted with
name-hashes 0x10 then 0x05 stores (and hence serializes) the 0x05 entry
first. -/
theorem pobj_enumeration_ascending :
    (∀ (o : RsParameterObject) (m : List (Nat × Parameter)),
        PobjFromFfi o = some m →
        List.Pairwise (fun a b => a.1 < b.1) m) ∧
    PobjFromFfi ⟨[(0x10, ⟨0, false, 0, 0, 0, [], [], [], [], [], [], []⟩),
                  (0x05, ⟨0, true, 0, 0, 0, [], [], [], [], [], [], []⟩)]⟩ =
      some [(0x05, Parameter.bool true), (0x10, Parameter.bool false)] ∧
    GetParamAt [(0x05, Parameter.bool true), (0x10, Parameter.bool false)] 0 =
      (0x05, Parameter.bool true) := by
  refine ⟨fun o m hm => pobjGo_sorted (by simp) hm, rfl, rfl⟩

/-- Witness for C9's quantified part at a concrete object. -/
theorem pobj_enumeration_ascending_witness :
    List.Pairwise (fun (a b : Nat × Parameter) => a.1 < b.1)
      [(5, Parameter.int 2), (9, Parameter.bool true)] :=
  pobj_enumeration_ascending.1
    ⟨[(9, ⟨0, true, 0, 0, 0, [], [], [], [], [], [], []⟩),
      (5, ⟨2, false, 0, 2, 0, [], [], [], [], [], [], []⟩)]⟩
    [(5, Parameter.int 2), (9, Parameter.bool true)] rfl

/-- C1 (failing part): `ParamFromFfi` does not preserve a buffer-typed
parameter. `std::vector<int> vec(buf.size())` already creates `buf.size()`
zero elements, and the loop then `push_back`s the payload after them, so a
one-element `BufferInt32` comes out with length two. -/
theorem paramFromFfi_buffer_not_preserved :
    ParamFromFfi ⟨13, false, 0, 0, 0, [], [], [], [7], [], [], []⟩ =
      some (Parameter.bufferInt [0, 7]) ∧
    Parameter.bufferInt [0, 7] ≠ Parameter.bufferInt [7] ∧
    ([0, 7] : List Int).length ≠ ([7] : List Int).length :=
  ⟨rfl, by decide, by decide⟩

/-- C8: the FFI type tag uniquely determines the constructed union arm, and
an unrecognized tag is a hard error (the `default:` case throws), never a
best-effort value. -/
theorem paramFromFfi_tag_determines_arm (p : RsParameter) :
    (p.tag < 21 → ∃ v, ParamFromFfi p = some v ∧ paramTypeOf v = p.tag) ∧
    (21 ≤ p.tag → ParamFromFfi p = none) := by
  obtain ⟨tag, bval, fbits, ival, uval, vecv, strv, curvev, bi, bf, bu, bb⟩ := p
  constructor
  · intro h
    simp only at h
    interval_cases tag <;> exact ⟨_, rfl, rfl⟩
  · intro h
    simp only at h
    obtain ⟨k, rfl⟩ : ∃ k, tag = k + 21 := ⟨tag - 21, by omega⟩
    rfl

/-- Witness for C8 at one recognized and one unrecognized tag. -/
theorem paramFromFfi_tag_determines_arm_witness :
    ParamFromFfi ⟨33, false, 0, 0, 0, [], [], [], [], [], [], []⟩ = none ∧
    ∃ v, ParamFromFfi ⟨17, false, 0, 0, 7, [], [], [], [], [], [], []⟩ = some v ∧
      paramTypeOf v = 17 :=
  ⟨(paramFromFfi_tag_determines_arm _).2 (by decide),
   (paramFromFfi_tag_determines_arm _).1 (by decide)⟩

end Aamp

namespace Byml

theorem fromFfiHash_sorted {es : List (Bytes × RByml)} :
    ∀ {acc m : List (Bytes × Node)},
      List.Pairwise (fun p q => bytesLt p.1 q.1 = true) acc →
      fromFfiHash es acc = some m →
      List.Pairwise (fun p q => bytesLt p.1 q.1 = true) m := by
  induction es with
  | nil =>
    intro acc m hacc hm
    simp only [fromFfiHash, Option.some.injEq] at hm
    exact hm ▸ hacc
  | cons e rest ih =>
    intro acc m hacc hm
    obtain ⟨k, r⟩ := e
    simp only [fromFfiHash] at hm
    cases hr : FromFfi r with
    | none => rw [hr] at hm; exact absurd hm (by simp)
    | some v =>
      rw [hr] at hm
      exact ih (by simpa [btreeInsert] using btKeep_sorted k v hacc) hm

theorem fromFfiList_forall : ∀ {xs : List RByml} {ys : List Node},
    fromFfiList xs = some ys →
    List.Forall₂ (fun x y => FromFfi x = some y) xs ys := by
  intro xs
  induction xs with
  | nil =>
    intro ys h
    simp only [fromFfiList, Option.some.injEq] at h
    exact h ▸ List.Forall₂.nil
  | cons x rest ih =>
    intro ys h
    simp only [fromFfiList] at h
    cases hx : FromFfi x with
    | none => rw [hx] at h; exact absurd h (by simp)
    | some y =>
      rw [hx] at h
      cases hrest : fromFfiList rest with
      | none => rw [hrest] at h; exact absurd h (by simp)
      | some ys0 =>
        rw [hrest] at h
        simp only [Option.some.injEq] at h
        exact h ▸ List.Forall₂.cons hx (ih hrest)

/-- C3: converting an FFI Hash node stores its children in ascending
byte-wise key order regardless of the enumeration order (so the stored
sequence `ToBinary` walks is key-sorted), while converting an FFI Array node
preserves the children in enumeration order, element for element. -/
theorem fromFfi_hash_sorted_array_ordered :
    (∀ (es : List (Bytes × RByml)) (m : List (Bytes × Node)),
        FromFfi (RByml.hash es) = some (Node.hash m) →
        List.Pairwise (fun p q => bytesLt p.1 q.1 = true) m) ∧
    (∀ (xs : List RByml) (ys : List Node),
        FromFfi (RByml.array xs) = some (Node.array ys) →
        List.Forall₂ (fun x y => FromFfi x = some y) xs ys) := by
  constructor
  · intro es m hm
    simp only [FromFfi] at hm
    cases hh : fromFfiHash es [] with
    | none => rw [hh] at hm; exact absurd hm (by simp)
    | some m0 =>
      rw [hh] at hm
      simp only [Option.some.injEq, Node.hash.injEq] at hm
      exact fromFfiHash_sorted List.Pairwise.nil (hm ▸ hh)
  · intro xs ys hy
    simp only [FromFfi] at hy
    cases hl : fromFfiList xs with
    | none => rw [hl] at hy; exact absurd hy (by simp)
    | some ys0 =>
      rw [hl] at hy
      simp only [Option.some.injEq, Node.array.injEq] at hy
      exact fromFfiList_forall (hy ▸ hl)

/-- Witness for C3: a Hash node enumerated in descending key order comes out
key-sorted, and a two-element Array keeps its order. -/
theorem fromFfi_hash_sorted_array_ordered_witness :
    List.Pairwise (fun (p q : Bytes × Node) => bytesLt p.1 q.1 = true)
      [([97], Node.int 1), ([98], Node.bool true)] ∧
    List.Forall₂ (fun x y => FromFfi x = some y)
      [RByml.uint 4, RByml.string [104, 105]]
      [Node.uint 4, Node.string [104, 105]] :=
  ⟨fromFfi_hash_sorted_array_ordered.1
      [([98], .bool true), ([97], .int 1)]
      [([97], Node.int 1), ([98], Node.bool true)] rfl,
   fromFfi_hash_sorted_array_ordered.2
      [RByml.uint 4, RByml.string [104, 105]]
      [Node.uint 4, Node.string [104, 105]] rfl⟩

/-- C4 (failing part): the `FromFfi` switch in `byml.cc` has no case for the
Null node type (and no default), so a Null node reaches the end of the
value-returning function without returning a `Byml`. -/
theorem fromFfi_null_falls_through : FromFfi RByml.null = none := rfl

end Byml

namespace Sarc

theorem keyMono {tbl : List (Nat × SFile)}
    (hs : List.Pairwise (fun x y => x.1 < y.1) tbl) {i j : Nat}
    (hij : i < j) (hj : j < tbl.length) :
    (tbl.getD i (0, ⟨[], [], 0⟩)).1 < (tbl.getD j (0, ⟨[], [], 0⟩)).1 := by
  rw [List.getD_eq_getElem _ _ (by omega), List.getD_eq_getElem _ _ hj]
  exact List.pairwise_iff_getElem.mp hs i j (by omega) hj hij

theorem keyUnique {tbl : List (Nat × SFile)}
    (hs : List.Pairwise (fun x y => x.1 < y.1) tbl) {i j : Nat}
    (hi : i < tbl.length) (hj : j < tbl.length)
    (hk : (tbl.getD i (0, ⟨[], [], 0⟩)).1 = (tbl.getD j (0, ⟨[], [], 0⟩)).1) :
    i = j := by
  rcases Nat.lt_trichotomy i j with h | h | h
  · have := keyMono hs h hj
    omega
  · exact h
  · have := keyMono hs h hi
    omega

theorem bsearch_sound {tbl : List (Nat × SFile)} {t : Nat} :
    ∀ (fuel : Nat) {lo hi : Nat} {f : SFile}, hi ≤ tbl.length →
      bsearch tbl t lo hi fuel = some f →
      ∃ i, i < tbl.length ∧ tbl.getD i (0, ⟨[], [], 0⟩) = (t, f) := by
  intro fuel
  induction fuel with
  | zero =>
    intro lo hi f _ h
    simp [bsearch] at h
  | succ fuel ih =>
    intro lo hi f hhi h
    simp only [bsearch] at h
    by_cases hlo : lo < hi
    · rw [if_pos hlo] at h
      by_cases hc1 : (tbl.getD ((lo + hi) / 2) (0, ⟨[], [], 0⟩)).1 = t
      · rw [if_pos hc1, Option.some.injEq] at h
        refine ⟨(lo + hi) / 2, by omega, ?_⟩
        have : tbl.getD ((lo + hi) / 2) (0, ⟨[], [], 0⟩) =
            ((tbl.getD ((lo + hi) / 2) (0, ⟨[], [], 0⟩)).1,
             (tbl.getD ((lo + hi) / 2) (0, ⟨[], [], 0⟩)).2) := rfl
        rw [this, hc1, h]
      · rw [if_neg hc1] at h
        by_cases hc2 : (tbl.getD ((lo + hi) / 2) (0, ⟨[], [], 0⟩)).1 < t
        · rw [if_pos hc2] at h
          exact ih hhi h
        · rw [if_neg hc2] at h
          exact ih (by omega) h
    · rw [if_neg hlo] at h
      exact absurd h (by simp)

theorem bsearch_complete {tbl : List (Nat × SFile)} {t : Nat}
    (hs : List.Pairwise (fun x y => x.1 < y.1) tbl) :
    ∀ (fuel : Nat) {lo hi i : Nat}, hi ≤ tbl.length → hi - lo ≤ fuel →
      lo ≤ i → i < hi → (tbl.getD i (0, ⟨[], [], 0⟩)).1 = t →
      ∃ f, bsearch tbl t lo hi fuel = some f := by
  intro fuel
  induction fuel with
  | zero =>
    intro lo hi i _ h2 h3 h4 _
    omega
  | succ fuel ih =>
    intro lo hi i h1 h2 h3 h4 h5
    have hlo : lo < hi := by omega
    simp only [bsearch, if_pos hlo]
    by_cases hc1 : (tbl.getD ((lo + hi) / 2) (0, ⟨[], [], 0⟩)).1 = t
    · rw [if_pos hc1]
      exact ⟨_, rfl⟩
    · rw [if_neg hc1]
      by_cases hc2 : (tbl.getD ((lo + hi) / 2) (0, ⟨[], [], 0⟩)).1 < t
      · rw [if_pos hc2]
        have hmi : (lo + hi) / 2 < i := by
          rcases Nat.lt_trichotomy i ((lo + hi) / 2) with h | h | h
          · have := keyMono hs h (by omega)
            omega
          · rw [h] at h5
            exact absurd h5 hc1
          · exact h
        exact ih h1 (by omega) (by omega) h4 h5
      · rw [if_neg hc2]
        have him : i < (lo + hi) / 2 := by
          rcases Nat.lt_trichotomy i ((lo + hi) / 2) with h | h | h
          · exact h
          · rw [h] at h5
            exact absurd h5 hc1
          · have := keyMono hs h (by omega)
            omega
        exact ih (by omega) (by omega) h3 him h5

/-- C5: looking a present file name up in a well-formed parsed archive
returns that entry's payload bytes, and looking an absent name up fails
(throws NotFound, here `none`); the lookup is a pure function of the
archive, which it leaves unchanged. -/
theorem get_file_data_lookup (a : Archive) (hwf : WellFormed a) (name : Bytes) :
    (∀ f ∈ a.files, f.name = name → get_file_data a name = some f.data) ∧
    ((∀ f ∈ a.files, f.name ≠ name) → get_file_data a name = none) := by
  constructor
  · intro f hf hname
    have hmem : (sarcHash name, f) ∈ table a :=
      List.mem_map.mpr ⟨f, hf, by rw [hname]⟩
    obtain ⟨i, hi, hgi⟩ := List.mem_iff_getElem.mp hmem
    have hgdi : (table a).getD i (0, ⟨[], [], 0⟩) = (sarcHash name, f) := by
      rw [List.getD_eq_getElem _ _ hi, hgi]
    obtain ⟨f', hbs⟩ := bsearch_complete hwf (table a).length (le_refl _)
      (by omega) (Nat.zero_le i) hi
      (show ((table a).getD i (0, ⟨[], [], 0⟩)).1 = sarcHash name by rw [hgdi])
    obtain ⟨j, hj, hgdj⟩ := bsearch_sound (table a).length (le_refl _) hbs
    have hij : i = j := keyUnique hwf hi hj (by rw [hgdi, hgdj])
    have hff : f' = f := by
      rw [hij] at hgdi
      have h2 : (sarcHash name, f) = (sarcHash name, f') := hgdi.symm.trans hgdj
      exact ((Prod.ext_iff.mp h2).2).symm
    simp [get_file_data, GetFile, hbs, hff, hname]
  · intro hab
    cases hbs : bsearch (table a) (sarcHash name) 0 (table a).length
        (table a).length with
    | none => simp [get_file_data, GetFile, hbs]
    | some f' =>
      obtain ⟨j, hj, hgdj⟩ := bsearch_sound (table a).length (le_refl _) hbs
      have hmem : (sarcHash name, f') ∈ table a := by
        rw [List.getD_eq_getElem _ _ hj] at hgdj
        rw [← hgdj]
        exact List.getElem_mem hj
      obtain ⟨g, hg, hgf⟩ := List.mem_map.mp hmem
      have hgf' : g = f' := congrArg Prod.snd hgf
      have : f'.name ≠ name := hgf' ▸ hab g hg
      simp [get_file_data, GetFile, hbs, this]

/-- Witness for C5 at the spec's example archive: one file `A.txt` with
payload `[0x41]`; lookup of `A.txt` succeeds with `[0x41]` and lookup of
`B.txt` reports NotFound. -/
theorem get_file_data_lookup_witness :
    get_file_data ⟨[⟨[65, 46, 116, 120, 116], [0x41], 16⟩], true⟩
      [65, 46, 116, 120, 116] = some [0x41] ∧
    get_file_data ⟨[⟨[65, 46, 116, 120, 116], [0x41], 16⟩], true⟩
      [66, 46, 116, 120, 116] = none :=
  ⟨(get_file_data_lookup ⟨[⟨[65, 46, 116, 120, 116], [0x41], 16⟩], true⟩
      (by decide) [65, 46, 116, 120, 116]).1 ⟨[65, 46, 116, 120, 116], [0x41], 16⟩
      (by decide) rfl,
   (get_file_data_lookup ⟨[⟨[65, 46, 116, 120, 116], [0x41], 16⟩], true⟩
      (by decide) [66, 46, 116, 120, 116]).2 (by decide)⟩

theorem btKeep_fresh_len {α : Type} {m : List (Bytes × α)} {k : Bytes} {v : α}
    (hk : ∀ p ∈ m, p.1 ≠ k) : (btKeep m k v).length = m.length + 1 := by
  induction m with
  | nil => rfl
  | cons p rest ih =>
    obtain ⟨k0, v0⟩ := p
    have hne : k0 ≠ k := hk (k0, v0) (List.mem_cons_self _ _)
    simp only [btKeep]
    split_ifs with h1 h2
    · simp
    · exact absurd h2.symm hne
    · simp only [List.length_cons]
      rw [ih (fun p hp => hk p (List.mem_cons_of_mem _ hp))]

theorem btKeep_fresh_mem {α : Type} {m : List (Bytes × α)} {k : Bytes} {v : α}
    (hk : ∀ p ∈ m, p.1 ≠ k) (q : Bytes × α) :
    q ∈ btKeep m k v ↔ q ∈ m ∨ q = (k, v) := by
  induction m with
  | nil => simp [btKeep]
  | cons p rest ih
  =>
    obtain ⟨k0, v0⟩ := p
    have hne : k0 ≠ k := hk (k0, v0) (List.mem_cons_self _ _)
    simp only [btKeep]
    split_ifs with h1 h2
    · constructor
      · intro h
        rcases List.mem_cons.mp h with h3 | h3
        · exact Or.inr h3
        · exact Or.inl h3
      · intro h
        rcases h with h3 | h3
        · exact List.mem_cons_of_mem _ h3
        · exact h3 ▸ List.mem_cons_self _ _
    · exact absurd h2.symm hne
    · have ihr := ih (fun p hp => hk p (List.mem_cons_of_mem _ hp))
      simp only [List.mem_cons, ihr]
      tauto

theorem foldEmplace_spec :
    ∀ (fs : List SFile) (m : List (Bytes × Bytes)),
      List.Pairwise (fun f g => f.name ≠ g.name) fs →
      (∀ f ∈ fs, ∀ p ∈ m, p.1 ≠ f.name) →
      ((fs.foldl (fun m f => nameEmplace m f.name f.data) m).length =
          m.length + fs.length) ∧
      (∀ q, q ∈ fs.foldl (fun m f => nameEmplace m f.name f.data) m ↔
          q ∈ m ∨ ∃ f ∈ fs, q = (f.name, f.data)) := by
  intro fs
  induction fs with
  | nil =>
    intro m _ _
    simp
  | cons f rest ih =>
    intro m hpw hfresh
    rcases List.pairwise_cons.mp hpw with ⟨hfr, hrest⟩
    have hkm : ∀ p ∈ m, p.1 ≠ f.name :=
      fun p hp => hfresh f (List.mem_cons_self _ _) p hp
    have hfresh2 : ∀ g ∈ rest, ∀ p ∈ nameEmplace m f.name f.data, p.1 ≠ g.name := by
      intro g hg p hp
      rcases (btKeep_fresh_mem hkm p).mp (by simpa [nameEmplace] using hp) with h3 | h3
      · exact hfresh g (List.mem_cons_of_mem _ hg) p h3
      · rw [h3]
        exact hfr g hg
    have hstep := ih (nameEmplace m f.name f.data) hrest hfresh2
    constructor
    · rw [List.foldl_cons, hstep.1]
      have : (nameEmplace m f.name f.data).length = m.length + 1 :=
        btKeep_fresh_len hkm
      rw [this]
      simp [List.length_cons]
      omega
    · intro q
      rw [List.foldl_cons, hstep.2 q]
      have : q ∈ nameEmplace m f.name f.data ↔ q ∈ m ∨ q = (f.name, f.data) :=
        btKeep_fresh_mem hkm q
      rw [this]
      simp only [List.mem_cons]
      constructor
      · rintro ((h | h) | ⟨g, hg, hq⟩)
        · exact Or.inl h
        · exact Or.inr ⟨f, Or.inl rfl, h⟩
        · exact Or.inr ⟨g, Or.inr hg, hq⟩
      · rintro (h | ⟨g, (hg | hg), hq⟩)
        · exact Or.inl (Or.inl h)
        · exact Or.inl (Or.inr (hg ▸ hq))
        · exact Or.inr ⟨g, hg, hq⟩

theorem wellFormed_names_distinct {a : Archive} (hwf : WellFormed a) :
    List.Pairwise (fun f g => f.name ≠ g.name) a.files := by
  simp only [WellFormed, table] at hwf
  exact List.Pairwise.of_map _
    (fun f g h heq => by simp only at h; rw [heq] at h; omega) hwf

/-- C6: a writer constructed from a well-formed parsed archive carries
exactly the archive's file set (same entry count, same names mapped to the
same payload bytes), the archive's detected endianness, the non-legacy
mode, and the archive's guessed minimum alignment. -/
theorem writerFromSarc_preserves (a : Archive) (hwf : WellFormed a) :
    (WriterFromSarc a).files.length = a.files.length ∧
    (∀ n d, (n, d) ∈ (WriterFromSarc a).files ↔
        ∃ f ∈ a.files, f.name = n ∧ f.data = d) ∧
    (WriterFromSarc a).bigEndian = a.bigEndian ∧
    (WriterFromSarc a).legacy = false ∧
    (WriterFromSarc a).minAlignment = GuessMinAlignment a := by
  have hspec := foldEmplace_spec a.files [] (wellFormed_names_distinct hwf)
    (by simp)
  refine ⟨?_, ?_, rfl, rfl, rfl⟩
  · simpa [WriterFromSarc] using hspec.1
  · intro n d
    have := hspec.2 (n, d)
    simp only [List.not_mem_nil, false_or] at this
    simp only [WriterFromSarc]
    rw [this]
    constructor
    · rintro ⟨f, hf, hq⟩
      rcases Prod.mk.injEq .. ▸ hq with ⟨h1, h2⟩
      exact ⟨f, hf, h1.symm, h2.symm⟩
    · rintro ⟨f, hf, h1, h2⟩
      exact ⟨f, hf, by rw [h1, h2]⟩

/-- Witness for C6 at a two-file archive. -/
theorem writerFromSarc_preserves_witness :
    (WriterFromSarc ⟨[⟨[65], [7], 16⟩, ⟨[66], [8], 24⟩], true⟩).files.length =
      ([⟨[65], [7], 16⟩, ⟨[66], [8], 24⟩] : List SFile).length ∧
    (WriterFromSarc ⟨[⟨[65], [7], 16⟩, ⟨[66], [8], 24⟩], true⟩).bigEndian = true ∧
    (WriterFromSarc ⟨[⟨[65], [7], 16⟩, ⟨[66], [8], 24⟩], true⟩).minAlignment =
      GuessMinAlignment ⟨[⟨[65], [7], 16⟩, ⟨[66], [8], 24⟩], true⟩ ∧
    (([65], [7]) ∈ (WriterFromSarc ⟨[⟨[65], [7], 16⟩, ⟨[66], [8], 24⟩], true⟩).files ↔
      ∃ f ∈ ([⟨[65], [7], 16⟩, ⟨[66], [8], 24⟩] : List SFile),
        f.name = [65] ∧ f.data = [7]) :=
  ⟨(writerFromSarc_preserves ⟨[⟨[65], [7], 16⟩, ⟨[66], [8], 24⟩], true⟩
      (by decide)).1,
   (writerFromSarc_preserves ⟨[⟨[65], [7], 16⟩, ⟨[66], [8], 24⟩], true⟩
      (by decide)).2.2.1,
   (writerFromSarc_preserves ⟨[⟨[65], [7], 16⟩, ⟨[66], [8], 24⟩], true⟩
      (by decide)).2.2.2.2,
   (writerFromSarc_preserves ⟨[⟨[65], [7], 16⟩, ⟨[66], [8], 24⟩], true⟩
      (by decide)).2.1 [65] [7]⟩

theorem sortedPairsExt {α : Type} :
    ∀ {l1 l2 : List (Bytes × α)},
      List.Pairwise (fun p q => bytesLt p.1 q.1 = true) l1 →
      List.Pairwise (fun p q => bytesLt p.1 q.1 = true) l2 →
      (∀ p, p ∈ l1 ↔ p ∈ l2) → l1 = l2 := by
  intro l1
  induction l1 with
  | nil =>
    intro l2 _ _ hset
    cases l2 with
    | nil => rfl
    | cons q t2 => exact absurd ((hset q).mpr (List.mem_cons_self _ _)) (by simp)
  | cons p t1 ih =>
    intro l2 h1 h2 hset
    cases l2 with
    | nil => exact absurd ((hset p).mp (List.mem_cons_self _ _)) (by simp)
    | cons q t2 =>
      rcases List.pairwise_cons.mp h1 with ⟨hp1, ht1⟩
      rcases List.pairwise_cons.mp h2 with ⟨hq2, ht2⟩
      have hpq : p = q := by
        rcases List.mem_cons.mp ((hset p).mp (List.mem_cons_self _ _)) with h | h
        · exact h
        · rcases List.mem_cons.mp ((hset q).mpr (List.mem_cons_self _ _)) with h3 | h3
          · exact h3.symm
          · exact (bytesLt_asymm (hq2 p h) (hp1 q h3)).elim
      subst hpq
      have hsett : ∀ x, x ∈ t1 ↔ x ∈ t2 := by
        intro x
        constructor
        · intro hx
          rcases List.mem_cons.mp ((hset x).mp (List.mem_cons_of_mem _ hx)) with h | h
          · subst h
            have := hp1 x hx
            rw [bytesLt_irrefl] at this
            exact absurd this (by simp)
          · exact h
        · intro hx
          rcases List.mem_cons.mp ((hset x).mpr (List.mem_cons_of_mem _ hx)) with h | h
          · subst h
            have := hq2 x hx
            rw [bytesLt_irrefl] at this
            exact absurd this (by simp)
          · exact h
      rw [ih ht1 ht2 hsett]

/-- C7: `FilesEqual` on two writers whose maps satisfy the btree invariant
is true exactly when the writers hold the same set of (name, payload)
pairs, regardless of the order in which entries were inserted. -/
theorem filesEqual_iff_same_file_set (w1 w2 : Writer)
    (h1 : WInv w1) (h2 : WInv w2) :
    FilesEqual w1 w2 = true ↔ ∀ p, p ∈ w1.files ↔ p ∈ w2.files := by
  constructor
  · intro h p
    have heq : w1.files = w2.files := of_decide_eq_true h
    rw [heq]
  · intro h
    exact decide_eq_true (sortedPairsExt h1 h2 h)

/-- Witness for C7: two writers with the same file map (but different
endianness, mode and alignment) compare equal. -/
theorem filesEqual_iff_same_file_set_witness :
    FilesEqual ⟨[([97], [1]), ([98], [2])], true, false, 0⟩
      ⟨[([97], [1]), ([98], [2])], false, true, 4⟩ = true :=
  (filesEqual_iff_same_file_set
      ⟨[([97], [1]), ([98], [2])], true, false, 0⟩
      ⟨[([97], [1]), ([98], [2])], false, true, 4⟩
      (by decide) (by decide)).mpr (fun p => Iff.rfl)

end Sarc

namespace Yaz0

theorem gd_eq_getElem : ∀ (l : List Nat) (i : Nat) (h : i < l.length), gd l i = l[i]
  | _ :: _, 0, _ => rfl
  | _ :: t, i + 1, h => gd_eq_getElem t i (by simpa using h)

theorem gd_append_left : ∀ (l r : List Nat) (i : Nat), i < l.length →
    gd (l ++ r) i = gd l i
  | a :: _, _, 0, _ => rfl
  | _ :: t, r, i + 1, h => gd_append_left t r i (by simpa using h)

theorem gd_take (l : List Nat) : ∀ (p i : Nat), i < p → gd (l.take p) i = gd l i := by
  induction l with
  | nil => intro p i _; simp
  | cons a t ih =>
    intro p i hip
    obtain ⟨p', rfl⟩ : ∃ p', p = p' + 1 := ⟨p - 1, by omega⟩
    cases i with
    | zero => rfl
    | succ i' => exact ih p' i' (by omega)

theorem take_append_gd (l : List Nat) {p : Nat} (h : p < l.length) :
    l.take p ++ [gd l p] = l.take (p + 1) := by
  rw [gd_eq_getElem l p h]
  exact List.take_concat_get' l p h

theorem length_take_of_le {l : List Nat} {p : Nat} (h : p ≤ l.length) :
    (l.take p).length = p := by
  rw [List.length_take]
  omega

theorem mkHeader_length (s a : Nat) : (mkHeader s a).length = 16 := by
  simp [mkHeader, u32be]

theorem readU32be_u32be (n : Nat) (rest : List Nat) :
    readU32be (u32be n ++ rest) = n % 2 ^ 32 := by
  simp only [u32be, List.cons_append, List.nil_append, readU32be, gd]
  omega

theorem compress_take16 (src : Bytes) (align level : Nat) :
    (Compress src align level).take 16 = mkHeader src.length align := by
  show (mkHeader src.length align ++ _).take 16 = mkHeader src.length align
  rw [show (16 : Nat) = (mkHeader src.length align).length from
    (mkHeader_length _ _).symm]
  exact List.take_left _ _

theorem compress_drop4 (src : Bytes) (align level : Nat) :
    readU32be ((Compress src align level).drop 4) = src.length % 2 ^ 32 := by
  show readU32be ((mkHeader src.length align ++ _).drop 4) = _
  rw [List.drop_append_of_le_length (by rw [mkHeader_length]; omega)]
  simp only [mkHeader, List.append_assoc, List.cons_append, List.nil_append,
    List.drop_succ_cons, List.drop_zero]
  rw [readU32be_u32be]
  omega

theorem compress_drop16 (src : Bytes) (align level : Nat) :
    (Compress src align level).drop 16 =
      encodeGroups (compressTokens src level src.length 0).length
        (compressTokens src level src.length 0) := by
  show (mkHeader src.length align ++ _).drop 16 = _
  rw [show (16 : Nat) = (mkHeader src.length align).length from
    (mkHeader_length _ _).symm]
  exact List.drop_left _ _

theorem compress_length (src : Bytes) (align level : Nat) :
    (Compress src align level).length = 16 +
      (encodeGroups (compressTokens src level src.length 0).length
        (compressTokens src level src.length 0)).length := by
  show (mkHeader src.length align ++ _).length = _
  rw [List.length_append, mkHeader_length]

theorem compress_magic (src : Bytes) (align level : Nat) :
    gd (Compress src align level) 0 = 0x59 ∧
    gd (Compress src align level) 1 = 0x61 ∧
    gd (Compress src align level) 2 = 0x7A ∧
    gd (Compress src align level) 3 = 0x30 := by
  refine ⟨?_, ?_, ?_, ?_⟩ <;>
    (show gd (mkHeader src.length align ++ _) _ = _
     rw [gd_append_left _ _ _ (by rw [mkHeader_length]; omega)]
     rfl)

/-- C10: for every input and level, the output of the exposed `compress`
entry point begins with the fixed 16-byte Yaz0 header whose alignment field
is 0 (the wrapper always passes alignment 0 to `Compress`) and whose
uncompressed-size field is the input length. -/
theorem compress_header_fields (src : Bytes) (level : Nat)
    (h : src.length < 2 ^ 32) :
    (compress src level).take 16 = mkHeader src.length 0 ∧
    readU32be ((compress src level).drop 4) = src.length ∧
    ((compress src level).drop 8).take 4 = u32be 0 := by
  refine ⟨compress_take16 src 0 level, ?_, ?_⟩
  · rw [show compress src level = Compress src 0 level from rfl,
      compress_drop4, Nat.mod_eq_of_lt h]
  · show ((mkHeader src.length 0 ++ _).drop 8).take 4 = u32be 0
    rw [List.drop_append_of_le_length (by rw [mkHeader_length]; omega)]
    simp only [mkHeader, u32be, List.append_assoc, List.cons_append,
      List.nil_append, List.drop_succ_cons, List.drop_zero,
      List.take_succ_cons, List.take_zero]
    norm_num

/-- Witness for C10 at a concrete input and level. -/
theorem compress_header_fields_witness :
    (compress [1, 2, 3] 7).take 16 = mkHeader 3 0 ∧
    readU32be ((compress [1, 2, 3] 7).drop 4) = 3 ∧
    ((compress [1, 2, 3] 7).drop 8).take 4 = u32be 0 := by
  have h := compress_header_fields [1, 2, 3] 7 (by decide)
  simpa using h

theorem matchLen_le (src : Bytes) : ∀ (cap i j : Nat), matchLen src i j cap ≤ cap := by
  intro cap
  induction cap with
  | zero => intro i j; simp [matchLen]
  | succ cap ih =>
    intro i j
    simp only [matchLen]
    split_ifs with h
    · have := ih (i + 1) (j + 1)
      omega
    · omega

theorem matchLen_spec (src : Bytes) : ∀ (cap i j t : Nat),
    t < matchLen src i j cap →
    j + t < src.length ∧ gd src (i + t) = gd src (j + t) := by
  intro cap
  induction cap with
  | zero => intro i j t h; simp [matchLen] at h
  | succ cap ih =>
    intro i j t h
    simp only [matchLen] at h
    split_ifs at h with hc
    · cases t with
      | zero => simpa using hc
      | succ t' =>
        have := ih (i + 1) (j + 1) t' (by omega)
        constructor
        · omega
        · have e1 : i + 1 + t' = i + (t' + 1) := by omega
          have e2 : j + 1 + t' = j + (t' + 1) := by omega
          rw [e1, e2] at this
          exact this.2
    · omega

theorem bestMatchGo_valid (src : Bytes) (pos : Nat) :
    ∀ (dmax : Nat) (best : Option (Nat × Nat)),
      dmax ≤ pos → dmax ≤ 0x1000 →
      (∀ d len, best = some (d, len) → ValidMatch src pos d len) →
      ∀ d len, bestMatchGo src pos dmax best = some (d, len) →
        ValidMatch src pos d len := by
  intro dmax
  induction dmax with
  | zero =>
    intro best _ _ hb d len h
    exact hb d len h
  | succ dm ih =>
    intro best h1 h2 hb d len h
    simp only [bestMatchGo] at h
    refine ih _ (by omega) (by omega) ?_ d len h
    intro d' len' hbest1
    split_ifs at hbest1 with hc
    · obtain ⟨rfl, rfl⟩ : dm + 1 = d' ∧ matchLen src (pos - (dm + 1)) pos 0x111 = len' := by
        have := Option.some.inj hbest1
        exact ⟨congrArg Prod.fst this, congrArg Prod.snd this⟩
      have hle := matchLen_le src 0x111 (pos - (dm + 1)) pos
      have hupper : pos + matchLen src (pos - (dm + 1)) pos 0x111 ≤ src.length := by
        have h3 := hc.1
        have := matchLen_spec src 0x111 (pos - (dm + 1)) pos
          (matchLen src (pos - (dm + 1)) pos 0x111 - 1) (by omega)
        omega
      refine ⟨by omega, by omega, by omega, hc.1, hle, hupper, ?_⟩
      intro i hi
      exact (matchLen_spec src 0x111 (pos - (dm + 1)) pos i hi).2
    · exact hb d' len' hbest1

theorem findBestMatch_valid (src : Bytes) (pos level : Nat) {d len : Nat}
    (h : findBestMatch src pos level = some (d, len)) :
    ValidMatch src pos d len := by
  refine bestMatchGo_valid src pos (min pos (searchDepth level)) none
    (by omega) ?_ (by simp) d len h
  have : searchDepth level ≤ 0x1000 := by
    simp only [searchDepth]
    omega
  omega

theorem compressTokens_chain (src : Bytes) (level : Nat) :
    ∀ (fuel pos : Nat), src.length ≤ pos + fuel → pos ≤ src.length →
      TokChain src pos (compressTokens src level fuel pos) src.length := by
  intro fuel
  induction fuel with
  | zero =>
    intro pos h1 h2
    have hpos : pos = src.length := by omega
    subst hpos
    exact TokChain.nil _
  | succ fuel ih =>
    intro pos h1 h2
    by_cases hp : pos < src.length
    · cases hm : findBestMatch src pos level with
      | none =>
        have : compressTokens src level (fuel + 1) pos =
            .lit (gd src pos) :: compressTokens src level fuel (pos + 1) := by
          simp only [compressTokens, if_pos hp, hm]
        rw [this]
        exact TokChain.lit pos _ _ hp (ih (pos + 1) (by omega) (by omega))
      | some dl =>
        obtain ⟨d, len⟩ := dl
        have hv : ValidMatch src pos d len := findBestMatch_valid src pos level hm
        have : compressTokens src level (fuel + 1) pos =
            .ref d len :: compressTokens src level fuel (pos + len) := by
          simp only [compressTokens, if_pos hp, hm]
        rw [this]
        have hlen3 : 3 ≤ len := hv.2.2.2.1
        have hple : pos + len ≤ src.length := hv.2.2.2.2.2.1
        exact TokChain.ref pos d len _ _ hv
          (ih (pos + len) (by omega) (by omega))
    · have hpos : pos = src.length := by omega
      subst hpos
      have : compressTokens src level (fuel + 1) src.length = [] := by
        simp [compressTokens]
      rw [this]
      exact TokChain.nil _

theorem tokChain_le {src : Bytes} : ∀ {pos q : Nat} {ts : List Tok},
    TokChain src pos ts q → pos ≤ q ∧ ts.length ≤ q - pos := by
  intro pos q ts h
  induction h with
  | nil => simp
  | lit pos rest q hp hch ih => simp only [List.length_cons]; omega
  | ref pos d len rest q hv hch ih =>
    have h3 : 3 ≤ len := hv.2.2.2.1
    simp only [List.length_cons]
    omega

theorem tokChain_split {src : Bytes} (n : Nat) :
    ∀ {pos q : Nat} {ts : List Tok}, TokChain src pos ts q →
      ∃ m, TokChain src pos (ts.take n) m ∧ TokChain src m (ts.drop n) q := by
  induction n with
  | zero =>
    intro pos q ts h
    exact ⟨pos, TokChain.nil _, h⟩
  | succ n ih =>
    intro pos q ts h
    cases h with
    | nil => exact ⟨_, TokChain.nil _, TokChain.nil _⟩
    | lit pos rest q2 hp hch =>
      obtain ⟨m, h1, h2⟩ := ih hch
      exact ⟨m, TokChain.lit pos _ _ hp h1, h2⟩
    | ref pos d len rest q2 hv hch =>
      obtain ⟨m, h1, h2⟩ := ih hch
      exact ⟨m, TokChain.ref pos d len _ _ hv h1, h2⟩

theorem ctrlFold_acc (g : List Tok) : ∀ (acc : Nat),
    g.foldl (fun a t => 2 * a + (if isLit t then 1 else 0)) acc =
      acc * 2 ^ g.length + ctrlBits g := by
  induction g with
  | nil => intro acc; simp [ctrlBits]
  | cons t rest ih =>
    intro acc
    simp only [ctrlBits, List.foldl_cons, List.length_cons]
    rw [ih (2 * acc + (if isLit t then 1 else 0)),
      ih (2 * 0 + (if isLit t then 1 else 0))]
    ring

theorem ctrlBits_cons (t : Tok) (rest : List Tok) :
    ctrlBits (t :: rest) =
      (if isLit t then 1 else 0) * 2 ^ rest.length + ctrlBits rest := by
  simp only [ctrlBits, List.foldl_cons]
  rw [ctrlFold_acc rest (2 * 0 + (if isLit t then 1 else 0))]
  simp only [ctrlBits]
  ring

theorem ctrlBits_lt (g : List Tok) : ctrlBits g < 2 ^ g.length := by
  induction g with
  | nil => simp [ctrlBits]
  | cons t rest ih =>
    rw [ctrlBits_cons]
    have hp : (2 : Nat) ^ (t :: rest).length = 2 * 2 ^ rest.length := by
      simp [List.length_cons]
      ring
    rw [hp]
    split_ifs <;> omega

theorem ctrlBits_bit (g : List Tok) : ∀ (k : Nat), k < g.length →
    ctrlBits g / 2 ^ (g.length - 1 - k) % 2 =
      (if isLit (g.getD k (.lit 0)) then 1 else 0) := by
  induction g with
  | nil => intro k h; simp at h
  | cons t rest ih =>
    intro k hk
    rw [ctrlBits_cons]
    cases k with
    | zero =>
      simp only [List.length_cons, Nat.add_sub_cancel, Nat.sub_zero,
        List.getD_cons_zero]
      have hlt := ctrlBits_lt rest
      rw [mul_comm, Nat.mul_add_div (by positivity),
        Nat.div_eq_of_lt hlt]
      split_ifs <;> rfl
    | succ k' =>
      have hk' : k' < rest.length := by
        simp only [List.length_cons] at hk
        omega
      have he : (t :: rest).length - 1 - (k' + 1) = rest.length - 1 - k' := by
        simp only [List.length_cons]
        omega
      rw [he]
      have hsplit : (if isLit t then 1 else 0) * 2 ^ rest.length =
          2 ^ (rest.length - 1 - k') * ((if isLit t then 1 else 0) * 2 ^ (k' + 1)) := by
        rw [mul_comm (2 ^ (rest.length - 1 - k'))
          ((if isLit t then 1 else 0) * 2 ^ (k' + 1)), mul_assoc, ← pow_add]
        congr 2
        omega
      rw [hsplit, Nat.mul_add_div (by positivity)]
      have h2 : (if isLit t then 1 else 0) * 2 ^ (k' + 1) =
          2 * ((if isLit t then 1 else 0) * 2 ^ k') := by ring
      rw [h2, Nat.add_comm, Nat.add_mul_mod_self_left, ih k' hk']
      simp only [List.getD_cons_succ]

theorem ctrlByte_bit (g : List Tok) (hg : g.length ≤ 8) (k : Nat)
    (hk : k < g.length) :
    ctrlByte g / 2 ^ (8 - 1 - k) % 2 =
      (if isLit (g.getD k (.lit 0)) then 1 else 0) := by
  simp only [ctrlByte]
  have hsplit : (2 : Nat) ^ (8 - 1 - k) =
      2 ^ (8 - g.length) * 2 ^ (g.length - 1 - k) := by
    rw [← pow_add]
    congr 1
    omega
  rw [hsplit, mul_comm (ctrlBits g) (2 ^ (8 - g.length)),
    Nat.mul_div_mul_left _ _ (by positivity)]
  exact ctrlBits_bit g k hk

theorem copyBack_take (src : Bytes) (d : Nat) :
    ∀ (k p : Nat), 1 ≤ d → d ≤ p → p + k ≤ src.length →
      (∀ t < k, gd src (p - d + t) = gd src (p + t)) →
      copyBack d (src.take p) k = src.take (p + k) := by
  intro k
  induction k with
  | zero =>
    intro p _ _ _ _
    simp [copyBack]
  | succ k ih =>
    intro p h1 h2 h3 hm
    simp only [copyBack]
    have hlen : (src.take p).length = p := length_take_of_le (by omega)
    have hidx : gd (src.take p) (p - d) = gd src (p - d) := gd_take src p (p - d) (by omega)
    rw [hlen, hidx]
    have h0 := hm 0 (by omega)
    simp only [Nat.add_zero] at h0
    rw [h0, take_append_gd src (by omega)]
    have hrec := ih (p + 1) h1 (by omega) (by omega) (fun t ht => by
      have := hm (t + 1) (by omega)
      have e1 : p + 1 - d + t = p - d + (t + 1) := by omega
      have e2 : p + 1 + t = p + (t + 1) := by omega
      rw [e1, e2]
      exact this)
    rw [hrec]
    congr 1
    omega

theorem decLoop_done (size : Nat) (out inp : List Nat) (ctrl bits fuel : Nat)
    (h : out.length = size) :
    decLoop size out inp ctrl bits (fuel + 1) = some out := by
  simp only [decLoop, decStep]
  rw [if_pos (by omega), if_pos h]

theorem decLoop_step_ctrl (size : Nat) (out : List Nat) (c : Nat)
    (inp : List Nat) (ctrl fuel : Nat) (hout : out.length < size) :
    decLoop size out (c :: inp) ctrl 0 (fuel + 1) =
      decLoop size out inp c 8 fuel := by
  simp only [decLoop, decStep]
  rw [if_neg (by omega)]
  simp

theorem decLoop_step_lit (size : Nat) (out : List Nat) (b : Nat)
    (inp : List Nat) (ctrl bits fuel : Nat) (hout : out.length < size)
    (hbits : bits ≠ 0) (hbit : ctrl / 2 ^ (bits - 1) % 2 = 1) :
    decLoop size out (b :: inp) ctrl bits (fuel + 1) =
      decLoop size (out ++ [b]) inp ctrl (bits - 1) fuel := by
  simp only [decLoop, decStep]
  rw [if_neg (by omega), if_neg hbits, if_pos hbit]

theorem decLoop_step_refShort (size : Nat) (out : List Nat) (b1 b2 : Nat)
    (inp : List Nat) (ctrl bits fuel : Nat) (hout : out.length < size)
    (hbits : bits ≠ 0) (hbit : ctrl / 2 ^ (bits - 1) % 2 = 0)
    (hb1 : b1 / 16 ≠ 0) (hd : b1 % 16 * 256 + b2 + 1 ≤ out.length) :
    decLoop size out (b1 :: b2 :: inp) ctrl bits (fuel + 1) =
      decLoop size (copyBack (b1 % 16 * 256 + b2 + 1) out (b1 / 16 + 2)) inp
        ctrl (bits - 1) fuel := by
  simp only [decLoop, decStep]
  rw [if_neg (by omega), if_neg hbits, if_neg (by omega), if_neg hb1, if_pos hd]

theorem decLoop_step_refLong (size : Nat) (out : List Nat) (b1 b2 b3 : Nat)
    (inp : List Nat) (ctrl bits fuel : Nat) (hout : out.length < size)
    (hbits : bits ≠ 0) (hbit : ctrl / 2 ^ (bits - 1) % 2 = 0)
    (hb1 : b1 / 16 = 0) (hd : b1 % 16 * 256 + b2 + 1 ≤ out.length) :
    decLoop size out (b1 :: b2 :: b3 :: inp) ctrl bits (fuel + 1) =
      decLoop size (copyBack (b1 % 16 * 256 + b2 + 1) out (b3 + 0x12)) inp
        ctrl (bits - 1) fuel := by
  simp only [decLoop, decStep]
  rw [if_neg (by omega), if_neg hbits, if_neg (by omega), if_pos hb1, if_pos hd]

theorem decLoop_run (src : Bytes) :
    ∀ (s : List Tok) (pos q ctrl bits fuel : Nat) (rest : List Nat),
      TokChain src pos s q →
      s.length ≤ bits → bits ≤ 8 →
      (∀ k, k < s.length → ctrl / 2 ^ (bits - 1 - k) % 2 =
        (if isLit (s.getD k (.lit 0)) then 1 else 0)) →
      decLoop src.length (src.take pos) (encodeToks s ++ rest) ctrl bits
          (fuel + s.length) =
        decLoop src.length (src.take q) rest ctrl (bits - s.length) fuel := by
  intro s
  induction s with
  | nil =>
    intro pos q ctrl bits fuel rest hch _ _ _
    cases hch
    simp [encodeToks]
  | cons t s' ih =>
    intro pos q ctrl bits fuel rest hch hlen hbits hctrl
    simp only [List.length_cons] at hlen
    cases hch with
    | lit _ _ _ hp hch' =>
      have hout : (src.take pos).length < src.length := by
        rw [length_take_of_le (le_of_lt hp)]
        exact hp
      have hbit : ctrl / 2 ^ (bits - 1) % 2 = 1 := by
        have h0 := hctrl 0 (by simp)
        simpa [isLit] using h0
      have hctrl' : ∀ k, k < s'.length →
          ctrl / 2 ^ (bits - 1 - 1 - k) % 2 =
            (if isLit (s'.getD k (.lit 0)) then 1 else 0) := by
        intro k hk
        have h1 := hctrl (k + 1) (by simp only [List.length_cons]; omega)
        rw [show bits - 1 - (k + 1) = bits - 1 - 1 - k by omega] at h1
        simpa using h1
      simp only [List.length_cons, encodeToks, encodeTok, List.cons_append,
        List.nil_append, List.append_assoc]
      rw [show fuel + (s'.length + 1) = (fuel + s'.length) + 1 from rfl]
      rw [decLoop_step_lit src.length (src.take pos) (gd src pos)
        (encodeToks s' ++ rest) ctrl bits (fuel + s'.length) hout
        (by omega) hbit]
      rw [take_append_gd src hp]
      rw [ih (pos + 1) q ctrl (bits - 1) fuel rest hch' (by omega) (by omega)
        hctrl']
      rw [show bits - 1 - s'.length = bits - (s'.length + 1) by omega]
    | ref _ d len _ _ hv hch' =>
      obtain ⟨hd1, hdp, hd4096, hl3, hlmax, hple, hmatch⟩ := hv
      have hp : pos < src.length := by omega
      have hout : (src.take pos).length < src.length := by
        rw [length_take_of_le (by omega)]
        omega
      have hbit : ctrl / 2 ^ (bits - 1) % 2 = 0 := by
        have h0 := hctrl 0 (by simp)
        simpa [isLit] using h0
      have hcopy : copyBack d (src.take pos) len = src.take (pos + len) :=
        copyBack_take src d len pos hd1 hdp hple hmatch
      have hctrl' : ∀ k, k < s'.length →
          ctrl / 2 ^ (bits - 1 - 1 - k) % 2 =
            (if isLit (s'.getD k (.lit 0)) then 1 else 0) := by
        intro k hk
        have h1 := hctrl (k + 1) (by simp only [List.length_cons]; omega)
        rw [show bits - 1 - (k + 1) = bits - 1 - 1 - k by omega] at h1
        simpa using h1
      simp only [List.length_cons, encodeToks, encodeTok, List.cons_append,
        List.nil_append, List.append_assoc]
      by_cases hshort : len < 0x12
      · rw [if_pos hshort]
        simp only [List.cons_append, List.nil_append]
        rw [show fuel + (s'.length + 1) = (fuel + s'.length) + 1 from rfl]
        have hdd : ((len - 2) * 16 + (d - 1) / 256) % 16 * 256 +
            (d - 1) % 256 + 1 = d := by omega
        have hb1ne : ((len - 2) * 16 + (d - 1) / 256) / 16 ≠ 0 := by omega
        have hb1div : ((len - 2) * 16 + (d - 1) / 256) / 16 = len - 2 := by
          omega
        have hdle : ((len - 2) * 16 + (d - 1) / 256) % 16 * 256 +
            (d - 1) % 256 + 1 ≤ (src.take pos).length := by
          rw [length_take_of_le (by omega)]
          omega
        rw [decLoop_step_refShort src.length (src.take pos)
          ((len - 2) * 16 + (d - 1) / 256) ((d - 1) % 256)
          (encodeToks s' ++ rest) ctrl bits (fuel + s'.length) hout
          (by omega) hbit hb1ne hdle]
        rw [hdd, hb1div, show len - 2 + 2 = len by omega, hcopy]
        rw [ih (pos + len) q ctrl (bits - 1) fuel rest hch' (by omega)
          (by omega) hctrl']
        rw [show bits - 1 - s'.length = bits - (s'.length + 1) by omega]
      · rw [if_neg hshort]
        simp only [List.cons_append, List.nil_append]
        rw [show fuel + (s'.length + 1) = (fuel + s'.length) + 1 from rfl]
        have hdd : (d - 1) / 256 % 16 * 256 + (d - 1) % 256 + 1 = d := by
          omega
        have hb1z : (d - 1) / 256 / 16 = 0 := by omega
        have hdle : (d - 1) / 256 % 16 * 256 + (d - 1) % 256 + 1 ≤
            (src.take pos).length := by
          rw [length_take_of_le (by omega)]
          omega
        rw [decLoop_step_refLong src.length (src.take pos) ((d - 1) / 256)
          ((d - 1) % 256) (len - 0x12) (encodeToks s' ++ rest) ctrl bits
          (fuel + s'.length) hout (by omega) hbit hb1z hdle]
        rw [hdd, show len - 0x12 + 0x12 = len by omega, hcopy]
        rw [ih (pos + len) q ctrl (bits - 1) fuel rest hch' (by omega)
          (by omega) hctrl']
        rw [show bits - 1 - s'.length = bits - (s'.length + 1) by omega]

theorem encodeGroups_nil (fuelE : Nat) : encodeGroups fuelE ([] : List Tok) = [] := by
  cases fuelE <;> rfl

theorem encodeToks_length_ge (s : List Tok) : s.length ≤ (encodeToks s).length := by
  induction s with
  | nil => simp [encodeToks]
  | cons t s' ih =>
    simp only [encodeToks, List.length_append, List.length_cons]
    have h1 : 1 ≤ (encodeTok t).length := by
      cases t with
      | lit b => simp [encodeTok]
      | ref d len =>
        simp only [encodeTok]
        split_ifs <;> simp
    omega

theorem encodeGroups_length_ge : ∀ (fuelE : Nat) (ts : List Tok),
    ts.length ≤ fuelE → ts.length ≤ (encodeGroups fuelE ts).length := by
  intro fuelE
  induction fuelE with
  | zero =>
    intro ts h
    have hts : ts = [] := List.length_eq_zero.mp (by omega)
    subst hts
    simp [encodeGroups]
  | succ fE ih =>
    intro ts h
    cases ts with
    | nil => simp [encodeGroups]
    | cons t rest =>
      simp only [encodeGroups, List.length_cons, List.length_append]
      have h1 := encodeToks_length_ge (t :: rest.take 7)
      have h2 := ih (rest.drop 7) (by
        simp only [List.length_cons] at h
        simp only [List.length_drop]
        omega)
      simp only [List.length_cons, List.length_take] at h1
      simp only [List.length_drop] at h2
      omega

theorem decLoop_groups (src : Bytes) :
    ∀ (n : Nat) (ts : List Tok) (pos ctrl fuelE fuel : Nat),
      ts.length ≤ n →
      TokChain src pos ts src.length →
      ts.length ≤ fuelE →
      2 * ts.length + 1 ≤ fuel →
      decLoop src.length (src.take pos) (encodeGroups fuelE ts) ctrl 0 fuel =
        some src := by
  intro n
  induction n with
  | zero =>
    intro ts pos ctrl fuelE fuel h1 hch h2 h3
    have hts : ts = [] := List.length_eq_zero.mp (by omega)
    subst hts
    cases hch
    obtain ⟨f2, rfl⟩ : ∃ f2, fuel = f2 + 1 := ⟨fuel - 1, by omega⟩
    rw [encodeGroups_nil, List.take_length]
    exact decLoop_done _ _ _ _ _ _ rfl
  | succ n ih =>
    intro ts pos ctrl fuelE fuel h1 hch h2 h3
    cases ts with
    | nil =>
      cases hch
      obtain ⟨f2, rfl⟩ : ∃ f2, fuel = f2 + 1 := ⟨fuel - 1, by omega⟩
      rw [encodeGroups_nil, List.take_length]
      exact decLoop_done _ _ _ _ _ _ rfl
    | cons t rest =>
      have hp : pos < src.length := by
        cases hch with
        | lit _ _ _ hp _ => exact hp
        | ref _ d len _ _ hv _ =>
          have h4 := hv.2.2.2.1
          have h5 := hv.2.2.2.2.2.1
          omega
      simp only [List.length_cons] at h1 h2 h3
      obtain ⟨fE, rfl⟩ : ∃ fE, fuelE = fE + 1 := ⟨fuelE - 1, by omega⟩
      obtain ⟨f1, rfl⟩ : ∃ f1, fuel = f1 + 1 := ⟨fuel - 1, by omega⟩
      simp only [encodeGroups]
      rw [decLoop_step_ctrl src.length (src.take pos)
        (ctrlByte (t :: rest.take 7))
        (encodeToks (t :: rest.take 7) ++ encodeGroups fE (rest.drop 7)) ctrl
        f1 (by rw [length_take_of_le (le_of_lt hp)]; exact hp)]
      obtain ⟨m, hg, hrest⟩ := tokChain_split 8 hch
      rw [show (t :: rest).take 8 = t :: rest.take 7 from rfl] at hg
      rw [show (t :: rest).drop 8 = rest.drop 7 from rfl] at hrest
      have hglen : (t :: rest.take 7).length = 1 + min 7 rest.length := by
        simp [List.length_take]
        omega
      have hgle : (t :: rest.take 7).length ≤ 8 := by omega
      rw [show f1 = (f1 - (t :: rest.take 7).length) + (t :: rest.take 7).length
        by omega]
      rw [decLoop_run src (t :: rest.take 7) pos m (ctrlByte (t :: rest.take 7))
        8 (f1 - (t :: rest.take 7).length) (encodeGroups fE (rest.drop 7)) hg
        hgle (le_refl 8) (fun k hk => ctrlByte_bit (t :: rest.take 7) hgle k hk)]
      by_cases hlen7 : rest.length ≤ 7
      · have hdrop : rest.drop 7 = [] := List.drop_eq_nil_of_le hlen7
        rw [hdrop] at hrest
        rw [hdrop, encodeGroups_nil]
        cases hrest
        obtain ⟨f2, hf2⟩ : ∃ f2, f1 - (t :: rest.take 7).length = f2 + 1 :=
          ⟨f1 - (t :: rest.take 7).length - 1, by omega⟩
        rw [hf2, List.take_length]
        exact decLoop_done _ _ _ _ _ _ rfl
      · have hg8 : (t :: rest.take 7).length = 8 := by omega
        rw [hg8, show (8 : Nat) - 8 = 0 from rfl]
        apply ih (rest.drop 7) m (ctrlByte (t :: rest.take 7)) fE (f1 - 8)
        · simp only [List.length_drop]
          omega
        · exact hrest
        · simp only [List.length_drop]
          omega
        · simp only [List.length_drop]
          omega

/-- C2: for every byte sequence (of encodable size), every alignment hint,
and every compression level in 6..9, decompressing the output of
`Compress` reproduces the input exactly. -/
theorem decompress_compress (src : Bytes) (align level : Nat)
    (h32 : src.length < 2 ^ 32) (h6 : 6 ≤ level) (h9 : level ≤ 9) :
    decompress (Compress src align level) = some src := by
  have hch : TokChain src 0 (compressTokens src level src.length 0) src.length :=
    compressTokens_chain src level src.length 0 (by omega) (by omega)
  have htlen : (compressTokens src level src.length 0).length ≤ src.length := by
    have := tokChain_le hch
    omega
  have hblen : (compressTokens src level src.length 0).length ≤
      (encodeGroups (compressTokens src level src.length 0).length
        (compressTokens src level src.length 0)).length :=
    encodeGroups_length_ge _ _ (le_refl _)
  have hmag := compress_magic src align level
  have hlen16 : 16 ≤ (Compress src align level).length := by
    rw [compress_length]
    omega
  show Decompress (Compress src align level) = some src
  rw [Decompress]
  rw [if_pos ⟨hlen16, hmag.1, hmag.2.1, hmag.2.2.1, hmag.2.2.2⟩]
  rw [compress_drop4, compress_drop16, Nat.mod_eq_of_lt h32]
  rw [← List.take_zero src]
  exact decLoop_groups src (compressTokens src level src.length 0).length
    (compressTokens src level src.length 0) 0 0
    (compressTokens src level src.length 0).length
    (src.length +
      (encodeGroups (compressTokens src level src.length 0).length
        (compressTokens src level src.length 0)).length + 1)
    (le_refl _) hch (le_refl _) (by omega)

/-- Witness for C2 at a concrete input, alignment hint and level. -/
theorem decompress_compress_witness :
    decompress (Compress [2, 2, 2, 2, 2, 2] 3 6) = some [2, 2, 2, 2, 2, 2] :=
  decompress_compress [2, 2, 2, 2, 2, 2] 3 6 (by decide) (by decide) (by decide)

end Yaz0

end Roead
